import Mathlib

/-!
Verification of the document-reconciliation core of the c4model CLI tool.

The embedding follows the two source files:
* `ordering.js` — composite-key extraction (`sortKey`), order-table
  construction (`ordering`), the comparator (`orderApply`) and the
  reordering pass (`sort`);
* `c4tool.js` — the three-pass document normalizer (`sortDiagram`), the
  empty-value pruner (`removeEmptyElements`) and the document-start-marker
  normalizer (`prepareYaml`).

A document node is modelled as a partial map from property names to string
values, mirroring a JS object read through `item[prop]`.
-/

/-- A JS object viewed through property reads: `item[prop]` is `some v`
when the property is present and `none` (undefined) otherwise. -/
abbrev Item := String → Option String

/-- An order table: composite key to zero-based position.  It models the JS
object used as accumulator in `ordering`; keys are pairwise distinct by
construction. -/
abbrev Table := List (String × Nat)

/-- JS `s.replace(' ', '_')`: only the first occurrence of the space
character is replaced by an underscore. -/
def replaceFirstSpace : List Char → List Char
  | [] => []
  | c :: cs => if c = ' ' then '_' :: cs else c :: replaceFirstSpace cs

/-- The join step of `sortKey`: `props.map((prop) => item[prop]).join('.')`.
A missing property (undefined) contributes an empty segment, exactly as
`Array.prototype.join` renders `undefined`. -/
def keyJoin (it : Item) (props : List String) : String :=
  String.intercalate (".") (props.map (fun p => (it p).getD ("")))

/-- Function `sortKey` from ordering.js line 4:
`props.map((prop) => item[prop]).join('.').replace(' ', '_')`. -/
def sortKey (it : Item) (props : List String) : String :=
  String.mk (replaceFirstSpace (keyJoin it props).data)

/-- Removal of the first whitespace character of a string, the claim's
reading of the key extractor's final step. -/
def stripFirstWs : List Char → List Char
  | [] => []
  | c :: cs => if c.isWhitespace then cs else c :: stripFirstWs cs

/-- The claim's reading of the key extractor, for comparison with the code:
the first whitespace character of the joined string is stripped (removed). -/
def sortKeyClaimed (it : Item) (props : List String) : String :=
  String.mk (stripFirstWs (keyJoin it props).data)

/-- Assignment `acc[key] = index` on a JS object: an existing key keeps its place in
the table and its value is overwritten, a new key is appended. -/
def tableInsert (t : Table) (k : String) (i : Nat) : Table :=
  if t.any (fun kv => kv.1 == k) then
    t.map (fun kv => if kv.1 == k then (k, i) else kv)
  else t ++ [(k, i)]

/-- The `reduce` loop of `ordering` (ordering.js lines 8-12), carried out
with an explicit running index. -/
def orderingAux (props : List String) : Table → Nat → List Item → Table
  | t, _, [] => t
  | t, i, it :: its => orderingAux props (tableInsert t (sortKey it props) i) (i + 1) its

/-- Function `ordering` from ordering.js lines 7-13: each selected node's composite
key is mapped to its index in the selection; a duplicate key is overwritten
by the later index. -/
def ordering (items : List Item) (props : List String) : Table :=
  orderingAux props [] 0 items

/-- Lookup `key in order` followed by `order[key]`: the position stored for a key,
if the key is present. -/
def tlookup (t : Table) (k : String) : Option Nat :=
  (t.find? (fun kv => kv.1 == k)).map Prod.snd

/-- The position a node gets in `orderApply` (ordering.js lines 16-20):
its table entry when the key is present, `Object.keys(order).length`
otherwise. -/
def posN (t : Table) (props : List String) (it : Item) : Nat :=
  match tlookup t (sortKey it props) with
  | some i => i
  | none => t.length

/-- Function `orderApply` from ordering.js lines 15-26: the three-way comparator
handed to `Array.prototype.sort`. -/
def orderApply (a b : Item) (order : Table) (props : List String) : Int :=
  let aPos := posN order props a
  let bPos := posN order props b
  if aPos < bPos then -1 else if aPos > bPos then 1 else 0

/-- Call `element[actualProperty].sort((a, b) => orderApply(a, b, order, props))`:
ECMAScript `Array.prototype.sort` is stable and, for this consistent
comparator, produces the unique stable sort by the comparator, modelled by
insertion sort on the non-strict relation `orderApply a b ≤ 0`. -/
def sortList (g : α → Item) (t : Table) (props : List String) (l : List α) : List α :=
  List.insertionSort (fun a b => orderApply (g a) (g b) t props ≤ 0) l

/-! ### The document model (spec §3, as consumed by `sortDiagram`) -/

/-- A container: has a `name`. -/
structure Container where
  name : String
deriving DecidableEq

/-- An element: has a `name` and optionally owns a `containers`
collection (`@.containers` truthiness in the JSONPath filters). -/
structure Element where
  name : String
  containers : Option (List Container)
deriving DecidableEq

/-- A relationship: has `source` and `destination`. -/
structure Relationship where
  source : String
  destination : String
deriving DecidableEq

/-- A document: root `elements` and `relationships` collections. -/
structure Doc where
  elements : List Element
  relationships : List Relationship
deriving DecidableEq

/-- Property reads on an element object. -/
def elItem (e : Element) : Item :=
  fun p => if p == ("name") then some e.name else none

/-- Property reads on a relationship object. -/
def relItem (r : Relationship) : Item :=
  fun p => if p == ("source") then some r.source
           else if p == ("destination") then some r.destination else none

/-- Property reads on a container object. -/
def contItem (c : Container) : Item :=
  fun p => if p == ("name") then some c.name else none

/-- Selector `$..elements[*]` on the document model: every element, in document
order (elements occur only at the root). -/
def selElements (d : Doc) : List Item := d.elements.map elItem

/-- Selector `$..relationships[*]` on the document model. -/
def selRelationships (d : Doc) : List Item := d.relationships.map relItem

/-- The reference selection of pass 3,
`$..elements[?(@.containers && @.name=="nm")].containers[*]`: the
concatenation, in document order, of the containers of every element whose
name equals `nm` and whose `containers` field is truthy. -/
def selContainers (d : Doc) (nm : String) : List Container :=
  (d.elements.filter (fun e => e.containers.isSome && e.name == nm)).flatMap
    (fun e => e.containers.getD [])

/-- The order table of pass 1, built from the reference document. -/
def elemsTable (d : Doc) : Table :=
  ordering (selElements d) [("name")]

/-- The order table of pass 2, built from the reference document. -/
def relsTable (d : Doc) : Table :=
  ordering (selRelationships d) [("source"), ("destination")]

/-- The order table of pass 3 for a given target element name, built from
the reference document. -/
def containersTable (d : Doc) (nm : String) : Table :=
  ordering ((selContainers d nm).map contItem) [("name")]

/-- Pass 1 of `sortDiagram` (c4tool.js lines 43-47) acting on the pair
(reference, target): the target's root `elements` collection is reordered
against the table built from the reference. -/
def pass1 (p : Doc × Doc) : Doc × Doc :=
  (p.1, { elements := sortList elItem (elemsTable p.1) [("name")] p.2.elements,
          relationships := p.2.relationships })

/-- Pass 2 of `sortDiagram` (c4tool.js lines 49-53). -/
def pass2 (p : Doc × Doc) : Doc × Doc :=
  (p.1, { elements := p.2.elements,
          relationships :=
            sortList relItem (relsTable p.1) [("source"), ("destination")] p.2.relationships })

/-- The per-element body of pass 3: a target element that owns a
`containers` collection gets it reordered against the reference-scoped
table; an element without one is untouched by the
`$..elements[?(@.containers)]` filter. -/
def sortContainersEl (ini : Doc) (el : Element) : Element :=
  match el.containers with
  | none => el
  | some cs =>
      { name := el.name,
        containers := some (sortList contItem (containersTable ini el.name) [("name")] cs) }

/-- Pass 3 of `sortDiagram` (c4tool.js lines 55-59). -/
def pass3 (p : Doc × Doc) : Doc × Doc :=
  (p.1, { elements := p.2.elements.map (sortContainersEl p.1),
          relationships := p.2.relationships })

/-- Function `sortDiagram` as a transformer of the (reference, target) state: the
three passes in source order. -/
def sortDiagramS (p : Doc × Doc) : Doc × Doc :=
  pass3 (pass2 (pass1 p))

/-- Function `sortDiagram` from c4tool.js lines 39-62: the reconciled target
document. -/
def sortDiagram (ini act : Doc) : Doc :=
  (sortDiagramS (ini, act)).2

/-- The target-side transform expressed as a function of the three order
tables alone, used to show the reconciliation depends on the reference only
through the tables it builds. -/
def applyOrderTables (t1 t2 : Table) (t3 : String → Table) (act : Doc) : Doc :=
  { elements :=
      (sortList elItem t1 [("name")] act.elements).map (fun el =>
        match el.containers with
        | none => el
        | some cs =>
            { name := el.name,
              containers := some (sortList contItem (t3 el.name) [("name")] cs) }),
    relationships := sortList relItem t2 [("source"), ("destination")] act.relationships }

/-! ### The empty-value pruner (`removeEmptyElements`, c4tool.js 130-139) -/

/-- A parsed YAML value as produced by the external parser. -/
inductive Val where
  | null : Val
  | str : String → Val
  | num : Int → Val
  | bool : Bool → Val
  | arr : List Val → Val
  | obj : List (String × Val) → Val

/-- Test `obj[k] === null || obj[k] === ''`: exactly the two pruned values;
`0` and `false` do not qualify. -/
def isEmptyVal : Val → Bool
  | Val.null => true
  | Val.str s => s == ("")
  | _ => false

/-- Test `typeof obj[k] == "object"` for non-null values: arrays and mappings. -/
def isContainerVal : Val → Bool
  | Val.arr _ => true
  | Val.obj _ => true
  | _ => false

/-- The `for (var k in obj)` loop of `removeEmptyElements` over an array,
with `ep` the recursive visit of a non-empty element.  `pre` holds the
already-passed elements in reverse; removing element `k` by `splice(k, 1)`
shifts the next element onto the already-visited index `k`, so that element
is moved to `pre` unexamined; when the removed element was the last one the
`obj.length == k` guard re-runs the whole loop on the current array.  The
fuel only bounds the number of loop steps; callers supply enough for the
loop to finish exactly as the JS loop does. -/
def pruneLoop (ep : Val → Val) : Nat → List Val → List Val → List Val
  | 0, pre, rem => pre.reverse ++ rem
  | _ + 1, pre, [] => pre.reverse
  | f + 1, pre, h :: t =>
    if isEmptyVal h then
      match t with
      | [] => pruneLoop ep f [] pre.reverse
      | x :: t2 => pruneLoop ep f (x :: pre) t2
    else pruneLoop ep f (ep h :: pre) t

/-- Function `removeEmptyElements`, fuelled by recursion depth.  On a mapping,
`for (var k in obj)` visits every key; an empty value is deleted (deleting
the current key skips nothing), a non-null object value is visited
recursively, and the array-only rescan guard never fires.  On an array the
loop above runs with a loop budget that the JS loop never exhausts. -/
def pruneF : Nat → Val → Val
  | 0, v => v
  | f + 1, Val.obj fs =>
      Val.obj (fs.filterMap (fun kv =>
        if isEmptyVal kv.2 then none
        else some (kv.1, if isContainerVal kv.2 then pruneF f kv.2 else kv.2)))
  | f + 1, Val.arr l =>
      Val.arr (pruneLoop (fun h => if isContainerVal h then pruneF f h else h)
        ((l.length + 1) * (l.length + 1)) [] l)
  | _ + 1, v => v

mutual

/-- Size of a value, an upper bound on its nesting depth. -/
def sizeV : Val → Nat
  | Val.null => 1
  | Val.str _ => 1
  | Val.num _ => 1
  | Val.bool _ => 1
  | Val.arr l => 1 + sizeVItems l
  | Val.obj fs => 1 + sizeVFields fs

/-- Size of a sequence of values. -/
def sizeVItems : List Val → Nat
  | [] => 0
  | v :: l => 1 + sizeV v + sizeVItems l

/-- Size of a mapping's field list. -/
def sizeVFields : List (String × Val) → Nat
  | [] => 0
  | kv :: fs => 1 + sizeV kv.2 + sizeVFields fs

end

/-- Function `removeEmptyElements` with the depth budget the JS recursion actually
uses: the nesting depth of the value, bounded by its size. -/
def prune (v : Val) : Val := pruneF (sizeV v) v

/-- Some property somewhere in the tree — a mapping value or a sequence
item — is exactly `null` or the empty string. -/
inductive HasEmpty : Val → Prop where
  | objField (fs : List (String × Val)) (kv : String × Val) :
      kv ∈ fs → isEmptyVal kv.2 = true → HasEmpty (Val.obj fs)
  | objRec (fs : List (String × Val)) (kv : String × Val) :
      kv ∈ fs → HasEmpty kv.2 → HasEmpty (Val.obj fs)
  | arrItem (l : List Val) (v : Val) :
      v ∈ l → isEmptyVal v = true → HasEmpty (Val.arr l)
  | arrRec (l : List Val) (v : Val) :
      v ∈ l → HasEmpty v → HasEmpty (Val.arr l)

/-- Trees built of mappings and scalars only, with no sequence anywhere. -/
inductive ObjOnly : Val → Prop where
  | null : ObjOnly Val.null
  | str (s : String) : ObjOnly (Val.str s)
  | num (n : Int) : ObjOnly (Val.num n)
  | bool (b : Bool) : ObjOnly (Val.bool b)
  | obj (fs : List (String × Val)) :
      (∀ kv ∈ fs, ObjOnly kv.2) → ObjOnly (Val.obj fs)

/-! ### The marker normalizer (`prepareYaml`, c4tool.js 124-128) -/

/-- The document-start marker searched by `yamlString.indexOf('---')`. -/
def markerL : List Char := ['-', '-', '-']

/-- The marker occurs at offset `j` of the text. -/
def markerAt (t : List Char) (j : Nat) : Prop :=
  markerL.isPrefixOf (t.drop j) = true

instance (t : List Char) (j : Nat) : Decidable (markerAt t j) := by
  unfold markerAt; infer_instance

/-- Search `indexOf('---')`: offset of the first occurrence of the marker, if
any. -/
def findMarker : List Char → Option Nat
  | [] => none
  | c :: cs =>
    if markerL.isPrefixOf (c :: cs) then some 0
    else (findMarker cs).map Nat.succ

/-- Function `prepareYaml`: the suffix starting at the first occurrence of the
marker when there is one, otherwise the marker line prepended to the
text. -/
def prepareYaml (t : List Char) : List Char :=
  match findMarker t with
  | some i => t.drop i
  | none => markerL ++ '\n' :: t

/-! ### Helper lemmas about the comparator and the stable sort -/

-- The comparator agrees with comparison of positions.
theorem orderApply_le_iff (a b : Item) (t : Table) (props : List String) :
    orderApply a b t props ≤ 0 ↔ posN t props a ≤ posN t props b := by
  dsimp only [orderApply]
  split_ifs with h1 h2 <;> omega

theorem orderApply_nonneg_iff (a b : Item) (t : Table) (props : List String) :
    0 ≤ orderApply a b t props ↔ posN t props b ≤ posN t props a := by
  dsimp only [orderApply]
  split_ifs with h1 h2 <;> omega

-- A sort under a universally-true relation is the identity.
theorem insertionSort_eq_self_of_total (r : α → α → Prop) [DecidableRel r]
    (htot : ∀ a b, r a b) (l : List α) : List.insertionSort r l = l := by
  have hs : l.Sorted r := List.pairwise_iff_get.mpr (fun i j _ => htot _ _)
  exact hs.insertionSort_eq

-- Inserting into a list moves the new element before exactly the elements
-- with a strictly larger measure; each measure level keeps its order.
theorem filter_orderedInsert (r : α → α → Prop) [DecidableRel r] (f : α → Nat)
    (hr : ∀ a b, r a b ↔ f a ≤ f b) (k : Nat) (x : α) :
    ∀ s : List α, (List.orderedInsert r x s).filter (fun y => f y == k) =
      if f x == k then x :: s.filter (fun y => f y == k)
      else s.filter (fun y => f y == k) := by
  intro s
  induction s with
  | nil => simp [List.orderedInsert, List.filter_cons]
  | cons y s ih =>
    by_cases hxy : r x y
    · rw [List.orderedInsert, if_pos hxy]
      by_cases hx : f x == k <;> simp [List.filter_cons, hx]
    · rw [List.orderedInsert, if_neg hxy]
      have hyx : f y < f x := by
        have := (hr x y).not.mp hxy
        omega
      by_cases hx : f x == k
      · have hxk : f x = k := by simpa using hx
        have hy : (f y == k) = false := by
          simp only [beq_eq_false_iff_ne, ne_eq]
          omega
        simp [List.filter_cons, hy, ih, hx]
      · simp [List.filter_cons, ih, hx]

-- Stability of the modelled sort: within each position level the output
-- keeps exactly the input's nodes in the input's relative order.
theorem filter_insertionSort (r : α → α → Prop) [DecidableRel r] (f : α → Nat)
    (hr : ∀ a b, r a b ↔ f a ≤ f b) (k : Nat) :
    ∀ l : List α, (List.insertionSort r l).filter (fun y => f y == k) =
      l.filter (fun y => f y == k) := by
  intro l
  induction l with
  | nil => rfl
  | cons x l ih =>
    rw [List.insertionSort, filter_orderedInsert r f hr k x, ih]
    by_cases hx : f x == k <;> simp [List.filter_cons, hx]

/-! ### Helper lemmas about the order table -/

theorem tableInsert_fresh (t : Table) (k : String) (i : Nat)
    (h : ∀ kv ∈ t, kv.1 ≠ k) : tableInsert t k i = t ++ [(k, i)] := by
  unfold tableInsert
  rw [if_neg]
  simp only [List.any_eq_true, beq_iff_eq, not_exists, not_and]
  intro kv hkv
  exact h kv hkv

-- Closed form of the table builder when all keys are distinct: the table
-- lists each key with its selection index, in selection order.
theorem orderingAux_closed (props : List String) (its : List Item) :
    ∀ (t : Table) (i0 : Nat),
      (t.map Prod.fst ++ its.map (fun it => sortKey it props)).Nodup →
      orderingAux props t i0 its =
        t ++ (List.enumFrom i0 (its.map (fun it => sortKey it props))).map
          (fun p => (p.2, p.1)) := by
  induction its with
  | nil => intro t i0 _; simp [orderingAux]
  | cons it its ih =>
    intro t i0 h
    have hk : sortKey it props ∉ t.map Prod.fst := by
      have hd := List.disjoint_of_nodup_append h
      intro hmem
      exact hd hmem (by simp)
    have hins : tableInsert t (sortKey it props) i0 = t ++ [(sortKey it props, i0)] := by
      refine tableInsert_fresh t _ i0 (fun kv hkv heq => hk ?_)
      exact heq ▸ List.mem_map_of_mem Prod.fst hkv
    have h2 : ((t ++ [(sortKey it props, i0)]).map Prod.fst ++
        its.map (fun it => sortKey it props)).Nodup := by
      simpa [List.append_assoc] using h
    calc orderingAux props t i0 (it :: its)
        = orderingAux props (t ++ [(sortKey it props, i0)]) (i0 + 1) its := by
          rw [orderingAux, hins]
      _ = (t ++ [(sortKey it props, i0)]) ++
            (List.enumFrom (i0 + 1) (its.map (fun it => sortKey it props))).map
              (fun p => (p.2, p.1)) := ih _ _ h2
      _ = t ++ (List.enumFrom i0 ((it :: its).map (fun it => sortKey it props))).map
            (fun p => (p.2, p.1)) := by
          simp [List.append_assoc]

-- Looking up the j-th key in the enumerated table finds index i0 + j.
theorem tlookup_enumFrom (keys : List String) :
    ∀ (i0 j : Nat) (hj : j < keys.length), keys.Nodup →
      tlookup ((List.enumFrom i0 keys).map (fun p => (p.2, p.1)))
        (keys.get ⟨j, hj⟩) = some (i0 + j) := by
  induction keys with
  | nil => intro i0 j hj _; exact absurd hj (Nat.not_lt_zero j)
  | cons k keys ih =>
    intro i0 j hj hnd
    match j with
    | 0 => simp [tlookup, List.find?]
    | j + 1 =>
      have hj2 : j < keys.length := Nat.lt_of_succ_lt_succ hj
      have hk : k ≠ keys.get ⟨j, hj2⟩ := by
        intro heq
        have : k ∈ keys := heq ▸ List.get_mem keys j hj2
        exact (List.nodup_cons.mp hnd).1 this
      have : tlookup ((List.enumFrom (i0 + 1) keys).map (fun p => (p.2, p.1)))
          (keys.get ⟨j, hj2⟩) = some (i0 + 1 + j) := ih (i0 + 1) j hj2 (List.nodup_cons.mp hnd).2
      rw [List.enumFrom_cons]
      show tlookup ((k, i0) :: (List.enumFrom (i0 + 1) keys).map (fun p => (p.2, p.1)))
          ((k :: keys).get ⟨j + 1, hj⟩) = some (i0 + (j + 1))
      have hget : (k :: keys).get ⟨j + 1, hj⟩ = keys.get ⟨j, hj2⟩ := rfl
      rw [hget, tlookup, List.find?_cons_of_neg]
      · rw [← tlookup, this]
        congr 1
        omega
      · exact fun heq => hk (beq_iff_eq.mp heq)

-- Each selected node, under distinct keys, is found at its own index.
theorem tlookup_ordering (sel : List Item) (props : List String)
    (h : (sel.map (fun it => sortKey it props)).Nodup)
    (j : Nat) (hj : j < sel.length) :
    tlookup (ordering sel props) (sortKey (sel.get ⟨j, hj⟩) props) = some j := by
  rw [ordering, orderingAux_closed props sel [] 0 (by simpa using h)]
  have hj2 : j < (sel.map (fun it => sortKey it props)).length := by simpa using hj
  have hget : (sel.map (fun it => sortKey it props)).get ⟨j, hj2⟩ =
      sortKey (sel.get ⟨j, hj⟩) props := by
    simp
  rw [List.nil_append, ← hget, tlookup_enumFrom _ 0 j hj2 h]
  simp

-- Every stored position in a distinct-key table is below the table size.
theorem mem_enumFrom_fst_lt (xs : List β) :
    ∀ (i0 : Nat) (p : Nat × β), p ∈ List.enumFrom i0 xs → p.1 < i0 + xs.length := by
  induction xs with
  | nil => intro i0 p hp; simp [List.enumFrom] at hp
  | cons x xs ih =>
    intro i0 p hp
    rw [List.enumFrom_cons] at hp
    rcases List.mem_cons.mp hp with h | h
    · subst h; simp only [List.length_cons]; omega
    · have := ih (i0 + 1) p h; simp only [List.length_cons]; omega

theorem ordering_snd_lt (sel : List Item) (props : List String)
    (h : (sel.map (fun it => sortKey it props)).Nodup) :
    ∀ kv ∈ ordering sel props, kv.2 < (ordering sel props).length := by
  rw [ordering, orderingAux_closed props sel [] 0 (by simpa using h), List.nil_append]
  intro kv hkv
  rcases List.mem_map.mp hkv with ⟨p, hp, rfl⟩
  have := mem_enumFrom_fst_lt _ 0 p hp
  simp only [List.length_map, List.enumFrom_length]
  simpa using this

-- Reordering with an empty table is the identity.
theorem sortList_nil_table (g : α → Item) (props : List String) (l : List α) :
    sortList g [] props l = l := by
  refine insertionSort_eq_self_of_total _ ?_ l
  intro a b
  rw [orderApply_le_iff]
  simp [posN, tlookup]

-- A collection whose image is a contiguous segment of a distinct-key
-- selection is left unchanged when reordered against that selection's
-- table: its nodes sit at strictly increasing table positions.
theorem sortList_segment_eq (g : α → Item) (props : List String)
    (preI postI : List Item) (l : List α)
    (h : ((preI ++ l.map g ++ postI).map (fun it => sortKey it props)).Nodup) :
    sortList g (ordering (preI ++ l.map g ++ postI) props) props l = l := by
  have hlen : ∀ j, j < l.length → preI.length + j < (preI ++ l.map g ++ postI).length := by
    intro j hj; simp; omega
  have hsel : ∀ (j : Nat) (hj : j < l.length),
      (preI ++ l.map g ++ postI).get ⟨preI.length + j, hlen j hj⟩ = g (l.get ⟨j, hj⟩) := by
    intro j hj
    have h1 : preI.length + j < (preI ++ l.map g).length := by simp; omega
    rw [List.get_eq_getElem]
    rw [List.getElem_append_left h1]
    rw [List.getElem_append_right (Nat.le_add_right preI.length j)]
    simp only [Nat.add_sub_cancel_left, List.getElem_map]
    rw [List.get_eq_getElem]
  have hpos : ∀ (j : Nat) (hj : j < l.length),
      posN (ordering (preI ++ l.map g ++ postI) props) props (g (l.get ⟨j, hj⟩)) =
        preI.length + j := by
    intro j hj
    have hl := tlookup_ordering (preI ++ l.map g ++ postI) props h
      (preI.length + j) (hlen j hj)
    rw [hsel j hj] at hl
    unfold posN
    rw [hl]
  have hsort : l.Sorted (fun a b =>
      orderApply (g a) (g b) (ordering (preI ++ l.map g ++ postI) props) props ≤ 0) := by
    refine List.pairwise_iff_get.mpr (fun i j hij => ?_)
    rw [orderApply_le_iff]
    have hi := hpos i.1 i.2
    have hj := hpos j.1 j.2
    rw [show l.get i = l.get ⟨i.1, i.2⟩ from rfl, show l.get j = l.get ⟨j.1, j.2⟩ from rfl,
      hi, hj]
    have : i.1 < j.1 := hij
    omega
  exact hsort.insertionSort_eq

-- Special case: a collection reordered against the table built from its
-- own selection, all keys distinct, is unchanged.
theorem sortList_self (g : α → Item) (props : List String) (l : List α)
    (h : ((l.map g).map (fun it => sortKey it props)).Nodup) :
    sortList g (ordering (l.map g) props) props l = l := by
  have hx := sortList_segment_eq g props [] [] l (by simpa using h)
  simpa using hx

/-! ### Helper lemmas about the pruner -/

theorem sizeV_pos (v : Val) : 1 ≤ sizeV v := by
  cases v <;> simp [sizeV]

theorem sizeV_mem_fields {fs : List (String × Val)} {kv : String × Val}
    (h : kv ∈ fs) : sizeV kv.2 < sizeVFields fs := by
  induction fs with
  | nil => cases h
  | cons kv2 fs ih =>
    rcases List.mem_cons.mp h with h2 | h2
    · subst h2; simp [sizeVFields]; omega
    · have := ih h2; simp [sizeVFields]; omega

theorem isEmptyVal_pruneF_obj (f : Nat) (fs : List (String × Val)) :
    isEmptyVal (pruneF f (Val.obj fs)) = false := by
  cases f <;> rfl

-- A scalar (non-container) value has no properties at all.
theorem not_hasEmpty_of_not_container {v : Val} (h : isContainerVal v = false) :
    ¬ HasEmpty v := by
  intro he
  cases he <;> simp [isContainerVal] at h

-- Visiting a mapping-only tree with enough depth budget removes every
-- empty property: every key of a mapping is visited and empty values are
-- deleted, while pruned children are mappings again, never empty values.
theorem pruneF_objOnly : ∀ (f : Nat) (v : Val), ObjOnly v → sizeV v ≤ f →
    ¬ HasEmpty (pruneF f v) := by
  intro f
  induction f with
  | zero => intro v _ hs; have := sizeV_pos v; omega
  | succ f ih =>
    intro v ho hs
    cases ho with
    | null => intro h; cases h
    | str s => intro h; cases h
    | num n => intro h; cases h
    | bool b => intro h; cases h
    | obj fs hfs =>
      intro h
      have hred : pruneF (f + 1) (Val.obj fs) = Val.obj (fs.filterMap (fun kv =>
          if isEmptyVal kv.2 then none
          else some (kv.1, if isContainerVal kv.2 then pruneF f kv.2 else kv.2))) := rfl
      rw [hred] at h
      have hsz : ∀ kv ∈ fs, sizeV kv.2 ≤ f := by
        intro kv hkv
        have h1 := sizeV_mem_fields hkv
        have h2 : sizeV (Val.obj fs) = 1 + sizeVFields fs := by simp [sizeV]
        omega
      cases h with
      | objField _ kv hmem hemp =>
        rcases List.mem_filterMap.mp hmem with ⟨⟨k0, v0⟩, hkv0, hsome⟩
        by_cases he : isEmptyVal v0 = true
        · rw [if_pos he] at hsome; cases hsome
        · rw [if_neg he] at hsome
          injection hsome with hkv
          subst hkv
          by_cases hc : isContainerVal v0 = true
          · rw [if_pos hc] at hemp
            have ho2 : ObjOnly v0 := hfs ⟨k0, v0⟩ hkv0
            cases ho2 with
            | null => simp [isContainerVal] at hc
            | str s => simp [isContainerVal] at hc
            | num n => simp [isContainerVal] at hc
            | bool b => simp [isContainerVal] at hc
            | obj fs2 _ => rw [isEmptyVal_pruneF_obj] at hemp; cases hemp
          · rw [if_neg hc] at hemp
            exact he hemp
      | objRec _ kv hmem hrec =>
        rcases List.mem_filterMap.mp hmem with ⟨⟨k0, v0⟩, hkv0, hsome⟩
        by_cases he : isEmptyVal v0 = true
        · rw [if_pos he] at hsome; cases hsome
        · rw [if_neg he] at hsome
          injection hsome with hkv
          subst hkv
          by_cases hc : isContainerVal v0 = true
          · rw [if_pos hc] at hrec
            exact ih v0 (hfs ⟨k0, v0⟩ hkv0) (hsz ⟨k0, v0⟩ hkv0) hrec
          · rw [if_neg hc] at hrec
            have ho2 : ObjOnly v0 := hfs ⟨k0, v0⟩ hkv0
            cases ho2 with
            | null => cases hrec
            | str s => cases hrec
            | num n => cases hrec
            | bool b => cases hrec
            | obj fs2 _ => exact hc rfl

/-! ### Helper lemmas about the marker normalizer -/

theorem findMarker_some (t : List Char) :
    ∀ i, findMarker t = some i → markerAt t i ∧ ∀ j, j < i → ¬ markerAt t j := by
  induction t with
  | nil => intro i h; cases h
  | cons c cs ih =>
    intro i h
    rw [findMarker] at h
    by_cases hp : markerL.isPrefixOf (c :: cs) = true
    · rw [if_pos hp] at h
      injection h with h0
      subst h0
      exact ⟨hp, fun j hj => absurd hj (Nat.not_lt_zero j)⟩
    · rw [if_neg hp] at h
      cases hcs : findMarker cs with
      | none => rw [hcs] at h; cases h
      | some i2 =>
        rw [hcs] at h
        have h3 : some (i2 + 1) = some i := h
        injection h3 with h2
        subst h2
        obtain ⟨hm, hmin⟩ := ih i2 hcs
        refine ⟨hm, ?_⟩
        intro j hj
        match j with
        | 0 => exact fun hq => hp hq
        | j + 1 => exact hmin j (by omega)

theorem findMarker_none (t : List Char) :
    findMarker t = none → ∀ j, ¬ markerAt t j := by
  induction t with
  | nil =>
    intro _ j hq
    unfold markerAt at hq
    rw [List.drop_nil] at hq
    exact absurd hq (by decide)
  | cons c cs ih =>
    intro h j
    rw [findMarker] at h
    by_cases hp : markerL.isPrefixOf (c :: cs) = true
    · rw [if_pos hp] at h; cases h
    · rw [if_neg hp] at h
      have hcs : findMarker cs = none := by
        cases hx : findMarker cs
        · rfl
        · rw [hx] at h; cases h
      match j with
      | 0 => exact fun hq => hp hq
      | j + 1 => exact ih hcs j

/-! ### Helper lemmas about the key extractor -/

theorem replaceFirstSpace_of_no_space :
    ∀ s : List Char, (∀ c ∈ s, c ≠ ' ') → replaceFirstSpace s = s := by
  intro s
  induction s with
  | nil => intro _; rfl
  | cons c cs ih =>
    intro h
    rw [replaceFirstSpace, if_neg (h c (by simp)), ih (fun x hx => h x (by simp [hx]))]

theorem replaceFirstSpace_append (l r : List Char) (h : ' ' ∉ l) :
    replaceFirstSpace (l ++ ' ' :: r) = l ++ '_' :: r := by
  induction l with
  | nil =>
    show replaceFirstSpace (' ' :: r) = '_' :: r
    rw [replaceFirstSpace, if_pos rfl]
  | cons c cs ih =>
    have hc : c ≠ ' ' := fun heq => h (heq ▸ List.mem_cons_self c cs)
    rw [List.cons_append, replaceFirstSpace, if_neg hc,
      ih (fun hx => h (List.mem_cons_of_mem c hx)), List.cons_append]

/-! ### Claims -/

-- A reference document whose two equal-keyed elements sandwich a
-- distinct one: the last-wins order table reshuffles the target.
def dupDoc : Doc :=
  { elements := [{ name := ("a"), containers := none },
                 { name := ("b"), containers := none },
                 { name := ("a"), containers := none }],
    relationships := [] }

/-- C1 counterexample: reconciling `dupDoc` against itself reorders its
`elements` collection.  The duplicate key a maps to the later index 2 in
the order table, so the positions along the target are 2, 1, 2 and the
stable sort moves b in front: the claim fails exactly when two nodes of a
collection share a composite key. -/
theorem c1_self_reconcile_counterexample :
    (sortDiagram dupDoc dupDoc).elements.map Element.name ≠
      dupDoc.elements.map Element.name := by
  decide

/-- C1 (amended): reconciling a document against itself leaves the order
of every collection unchanged provided the composite keys within each
reference selection (all elements, all relationships and, for each element
owning containers, the concatenated containers of the same-named elements)
are pairwise distinct.  With a duplicate key the last-wins order table can
reorder collections, as the counterexample shows. -/
theorem c1_self_reconcile_nodup (d : Doc)
    (h1 : (d.elements.map (fun e => sortKey (elItem e) [("name")])).Nodup)
    (h2 : (d.relationships.map (fun r =>
        sortKey (relItem r) [("source"), ("destination")])).Nodup)
    (h3 : ∀ el ∈ d.elements, el.containers.isSome = true →
        ((selContainers d el.name).map (fun c => sortKey (contItem c) [("name")])).Nodup) :
    sortDiagram d d = d := by
  have e1 : sortList elItem (elemsTable d) [("name")] d.elements = d.elements := by
    have hx := sortList_self elItem [("name")] d.elements (by
      simpa [List.map_map, Function.comp] using h1)
    simpa [elemsTable, selElements] using hx
  have r1 : sortList relItem (relsTable d) [("source"), ("destination")] d.relationships
      = d.relationships := by
    have hx := sortList_self relItem [("source"), ("destination")] d.relationships (by
      simpa [List.map_map, Function.comp] using h2)
    simpa [relsTable, selRelationships] using hx
  have e3 : ∀ el ∈ d.elements, sortContainersEl d el = el := by
    intro el hel
    obtain ⟨nm, co⟩ := el
    rcases co with _ | cs
    · rfl
    · have hsorted : sortList contItem (containersTable d nm) [("name")] cs = cs := by
        have hfil : (⟨nm, some cs⟩ : Element) ∈ d.elements.filter
            (fun e => e.containers.isSome && e.name == nm) :=
          List.mem_filter.mpr ⟨hel, by simp⟩
        rcases List.append_of_mem hfil with ⟨s, t2, hst⟩
        have hsel : selContainers d nm =
            (s.flatMap fun e => e.containers.getD []) ++ cs ++
            (t2.flatMap fun e => e.containers.getD []) := by
          rw [selContainers, hst]
          rw [List.flatMap_append, List.flatMap_cons]
          simp [List.append_assoc]
        have hnd := h3 ⟨nm, some cs⟩ hel rfl
        rw [hsel] at hnd
        have hmm : (((s.flatMap fun e => e.containers.getD []).map contItem ++
            cs.map contItem ++
            (t2.flatMap fun e => e.containers.getD []).map contItem).map
              (fun it => sortKey it [("name")])).Nodup := by
          simpa [List.map_append, List.map_map, Function.comp] using hnd
        have hseg := sortList_segment_eq contItem [("name")]
          ((s.flatMap fun e => e.containers.getD []).map contItem)
          ((t2.flatMap fun e => e.containers.getD []).map contItem) cs hmm
        rw [containersTable, hsel]
        simpa [List.map_append] using hseg
      rw [show sortContainersEl d ⟨nm, some cs⟩ =
          ⟨nm, some (sortList contItem (containersTable d nm) [("name")] cs)⟩ from rfl,
        hsorted]
  unfold sortDiagram sortDiagramS pass3 pass2 pass1
  dsimp only
  rw [e1, r1]
  rw [(List.map_congr_left (fun a ha => e3 a ha)).trans (List.map_id d.elements)]

-- A reference/target document with pairwise-distinct keys everywhere.
def okDoc : Doc :=
  { elements := [{ name := ("a"),
                   containers := some [{ name := ("x") }, { name := ("y") }] },
                 { name := ("b"), containers := none }],
    relationships := [{ source := ("a"), destination := ("b") }] }

/-- C1 witness: the amended idempotence theorem applied to a concrete
document with distinct keys in every selection. -/
theorem c1_witness :
    (okDoc.elements.map (fun e => sortKey (elItem e) [("name")])).Nodup
    ∧ (okDoc.relationships.map (fun r =>
        sortKey (relItem r) [("source"), ("destination")])).Nodup
    ∧ (∀ el ∈ okDoc.elements, el.containers.isSome = true →
        ((selContainers okDoc el.name).map (fun c => sortKey (contItem c) [("name")])).Nodup)
    ∧ sortDiagram okDoc okDoc = okDoc :=
  ⟨by decide, by decide, by decide,
   c1_self_reconcile_nodup okDoc (by decide) (by decide) (by decide)⟩

-- A node carrying a single name property, used for concrete reorderings.
def nameItem (nm : String) : Item :=
  fun p => if p == ("name") then some nm else none

/-- C2 counterexample: with an order table built from a reference whose two
nodes share the key a, the table is a to 1 and its size is 1, so a matched
node's position equals the fallback position of an unmatched node: they tie,
and the stable sort leaves the unmatched node b in front of the matched
node a instead of after it.  This refutes the parenthetical claim that
every unmatched node sorts after every matched node. -/
theorem c2_unmatched_counterexample :
    posN (ordering [nameItem ("a"), nameItem ("a")] [("name")]) [("name")] (nameItem ("b")) =
      posN (ordering [nameItem ("a"), nameItem ("a")] [("name")]) [("name")] (nameItem ("a"))
    ∧ sortList nameItem (ordering [nameItem ("a"), nameItem ("a")] [("name")]) [("name")]
        [("b"), ("a")] = [("b"), ("a")] := by
  constructor
  · decide
  · decide

/-- C2 (amended): the Reorderer sorts by the position function
pos(n) = T[key(n, P)] if present, else size(T); the output is ordered by
non-decreasing positions; ties — in particular all unmatched nodes, which
tie at size(T) — keep their original relative order (the sort is stable,
stated as: each position level filters to the same subsequence as in the
input); an unmatched node sorts after every matched node whose stored
position is below size(T), which covers all matched nodes whenever the
table was built from a selection with pairwise-distinct keys, but can fail
for tables whose duplicate-key last-wins entries reach size(T). -/
theorem c2_reorderer_stable (g : α → Item) (t : Table) (props : List String) (l : List α) :
    ((sortList g t props l).Pairwise
        (fun a b => posN t props (g a) ≤ posN t props (g b)))
    ∧ (∀ k : Nat, (sortList g t props l).filter (fun x => posN t props (g x) == k) =
        l.filter (fun x => posN t props (g x) == k))
    ∧ (∀ a b : α, tlookup t (sortKey (g a) props) = none →
        ∀ i : Nat, tlookup t (sortKey (g b) props) = some i → i < t.length →
          posN t props (g b) < posN t props (g a))
    ∧ (∀ sel : List Item, (sel.map (fun it => sortKey it props)).Nodup →
        ∀ kv ∈ ordering sel props, kv.2 < (ordering sel props).length) := by
  refine ⟨?_, ?_, ?_, ?_⟩
  · have hs : (List.insertionSort
        (fun a b => orderApply (g a) (g b) t props ≤ 0) l).Sorted
        (fun a b => orderApply (g a) (g b) t props ≤ 0) := by
      haveI hto : IsTotal α (fun a b => orderApply (g a) (g b) t props ≤ 0) := by
        refine ⟨fun a b => ?_⟩
        rcases Nat.le_total (posN t props (g a)) (posN t props (g b)) with h | h
        · exact Or.inl ((orderApply_le_iff _ _ t props).mpr h)
        · exact Or.inr ((orderApply_le_iff _ _ t props).mpr h)
      haveI htr : IsTrans α (fun a b => orderApply (g a) (g b) t props ≤ 0) := by
        refine ⟨fun a b c hab hbc => ?_⟩
        rw [orderApply_le_iff] at hab hbc ⊢
        omega
      exact List.sorted_insertionSort _ l
    exact hs.imp (fun hab => (orderApply_le_iff _ _ t props).mp hab)
  · intro k
    exact filter_insertionSort _ (fun x => posN t props (g x))
      (fun a b => orderApply_le_iff _ _ t props) k l
  · intro a b hnone i hsome hlt
    unfold posN
    rw [hnone, hsome]
    exact hlt
  · intro sel hnd
    exact ordering_snd_lt sel props hnd

/-- C2 witness: the amended theorem applied at a concrete table built from
the distinct-key reference selection a, b: the matched node a (position 0,
below the table size 2) sorts strictly before the unmatched node z, and the
stored position of the entry for a is below the table size. -/
theorem c2_witness :
    posN (ordering [nameItem ("a"), nameItem ("b")] [("name")]) [("name")] (nameItem ("a")) <
      posN (ordering [nameItem ("a"), nameItem ("b")] [("name")]) [("name")] (nameItem ("z"))
    ∧ ((("a") : String), 0).2 <
        (ordering [nameItem ("a"), nameItem ("b")] [("name")]).length :=
  ⟨(c2_reorderer_stable nameItem (ordering [nameItem ("a"), nameItem ("b")] [("name")])
      [("name")] ([] : List String)).2.2.1 ("z") ("a") (by decide) 0 (by decide) (by decide),
   (c2_reorderer_stable nameItem (ordering [nameItem ("a"), nameItem ("b")] [("name")])
      [("name")] ([] : List String)).2.2.2 [nameItem ("a"), nameItem ("b")] (by decide)
      ((("a") : String), 0) (by decide)⟩

/-- C3: the Reorderer's output is a permutation of its input: same
multiset of nodes, hence same count, with nothing duplicated or lost. -/
theorem c3_reorderer_permutation (g : α → Item) (t : Table) (props : List String)
    (l : List α) :
    (sortList g t props l).Perm l ∧ (sortList g t props l).length = l.length :=
  ⟨List.perm_insertionSort _ l, List.length_insertionSort _ l⟩

/-- C4 counterexample: on a node whose name is the two-word string a b, the
code's key a_b differs from the claim's stripped key ab: the first space is
replaced by an underscore, not removed. -/
theorem c4_key_counterexample :
    sortKey (nameItem ("a b")) [("name")] = ("a_b")
    ∧ sortKeyClaimed (nameItem ("a b")) [("name")] = ("ab")
    ∧ sortKey (nameItem ("a b")) [("name")] ≠ sortKeyClaimed (nameItem ("a b")) [("name")] := by
  refine ⟨by decide, by decide, by decide⟩

/-- C4 (amended): the Key Extractor concatenates, in the given order, the
string form of each named property's value (a missing property contributing
an empty segment) joined by the fixed separator, after which only the first
occurrence of the space character in the resulting string is replaced by an
underscore; later spaces and all other whitespace characters are left
untouched. -/
theorem c4_key_characterization (it : Item) (props : List String) :
    ((∀ c ∈ (keyJoin it props).data, c ≠ ' ') → sortKey it props = keyJoin it props)
    ∧ (∀ l r : List Char, (keyJoin it props).data = l ++ ' ' :: r → ' ' ∉ l →
        (sortKey it props).data = l ++ '_' :: r) := by
  constructor
  · intro h
    unfold sortKey
    rw [replaceFirstSpace_of_no_space _ h]
  · intro l r hdata hl
    unfold sortKey
    rw [hdata, replaceFirstSpace_append l r hl]

/-- C4 witness: the characterization applied to a space-free key, left
unchanged, and to the key of the node named a b, which becomes a_b. -/
theorem c4_witness :
    sortKey (nameItem ("ab")) [("name")] = keyJoin (nameItem ("ab")) [("name")]
    ∧ (sortKey (nameItem ("a b")) [("name")]).data = ['a'] ++ '_' :: ['b'] :=
  ⟨(c4_key_characterization (nameItem ("ab")) [("name")]).1 (by decide),
   (c4_key_characterization (nameItem ("a b")) [("name")]).2 ['a'] ['b']
     (by decide) (by decide)⟩

/-- C5 counterexample: pruning the sequence null, null, x leaves the first
null in place: removing the null at index 0 shifts the second null onto the
already-visited index, the loop skips it, and no rescan fires because the
removed element was not the last one.  A null sequence item survives, so
the claim that every null or empty-string property is removed fails. -/
theorem c5_pruner_counterexample :
    HasEmpty (prune (Val.arr [Val.null, Val.null, Val.str ("x")])) := by
  have h : prune (Val.arr [Val.null, Val.null, Val.str ("x")]) =
      Val.arr [Val.null, Val.str ("x")] := by
    show pruneF (sizeV (Val.arr [Val.null, Val.null, Val.str ("x")])) _ = _
    rw [show sizeV (Val.arr [Val.null, Val.null, Val.str ("x")]) = 7 from by
      simp [sizeV, sizeVItems]]
    rfl
  rw [h]
  exact HasEmpty.arrItem _ Val.null (by simp) rfl

/-- C5 (amended): for every input tree built of mappings and scalars only
(no sequences anywhere), after the pruner runs no property anywhere has a
value that is exactly null or the empty string.  For trees with sequences
the guarantee fails: removing an empty item shifts its successor onto the
already-visited index and the successor is skipped, as the counterexample
shows. -/
theorem c5_pruner_mappings_only (v : Val) (h : ObjOnly v) : ¬ HasEmpty (prune v) :=
  pruneF_objOnly (sizeV v) v h (Nat.le_refl _)

/-- C5 witness: the amended theorem applied to a concrete mapping tree with
a null property, an empty-string property and a nested mapping. -/
theorem c5_witness :
    ObjOnly (Val.obj [(("a"), Val.null),
      (("b"), Val.obj [(("c"), Val.str ("")), (("d"), Val.num 3)])])
    ∧ ¬ HasEmpty (prune (Val.obj [(("a"), Val.null),
        (("b"), Val.obj [(("c"), Val.str ("")), (("d"), Val.num 3)])])) := by
  have ho : ObjOnly (Val.obj [(("a"), Val.null),
      (("b"), Val.obj [(("c"), Val.str ("")), (("d"), Val.num 3)])]) := by
    refine ObjOnly.obj _ ?_
    intro kv hkv
    rcases List.mem_cons.mp hkv with h1 | h1
    · subst h1; exact ObjOnly.null
    · rcases List.mem_cons.mp h1 with h2 | h2
      · subst h2
        refine ObjOnly.obj _ ?_
        intro kv2 hkv2
        rcases List.mem_cons.mp hkv2 with h3 | h3
        · subst h3; exact ObjOnly.str _
        · rcases List.mem_cons.mp h3 with h4 | h4
          · subst h4; exact ObjOnly.num _
          · cases h4
      · cases h2
  exact ⟨ho, c5_pruner_mappings_only _ ho⟩

/-- C6: pruning the mapping a mapsto null, b mapsto empty string, c mapsto
x, d mapsto 0, e mapsto false removes exactly the null-valued and the
empty-string-valued properties and preserves the properties valued 0 and
false. -/
theorem c6_prune_concrete :
    prune (Val.obj [(("a"), Val.null), (("b"), Val.str ("")), (("c"), Val.str ("x")),
      (("d"), Val.num 0), (("e"), Val.bool false)]) =
    Val.obj [(("c"), Val.str ("x")), (("d"), Val.num 0), (("e"), Val.bool false)] := by
  show pruneF (sizeV (Val.obj [(("a"), Val.null), (("b"), Val.str ("")),
    (("c"), Val.str ("x")), (("d"), Val.num 0), (("e"), Val.bool false)])) _ = _
  rw [show sizeV (Val.obj [(("a"), Val.null), (("b"), Val.str ("")), (("c"), Val.str ("x")),
      (("d"), Val.num 0), (("e"), Val.bool false)]) = 11 from by
    simp [sizeV, sizeVFields]]
  rfl

/-- C7: if the document-start marker occurs nowhere in the text, the output
is the marker on its own line followed by the original text unchanged; if
it occurs, the output is the suffix of the text beginning exactly at the
first occurrence, all preceding text discarded. -/
theorem c7_marker (t : List Char) :
    ((∀ j, j < t.length → ¬ markerAt t j) → prepareYaml t = markerL ++ '\n' :: t)
    ∧ (∀ i, markerAt t i → (∀ j, j < i → ¬ markerAt t j) → prepareYaml t = t.drop i) := by
  constructor
  · intro h
    unfold prepareYaml
    cases hf : findMarker t with
    | none => rfl
    | some i =>
      obtain ⟨hm, _⟩ := findMarker_some t i hf
      exfalso
      have hlt : i < t.length := by
        by_contra hge
        have hd : t.drop i = [] := List.drop_eq_nil_of_le (by omega)
        unfold markerAt at hm
        rw [hd] at hm
        exact absurd hm (by decide)
      exact h i hlt hm
  · intro i hm hmin
    unfold prepareYaml
    cases hf : findMarker t with
    | none => exact absurd hm (findMarker_none t hf i)
    | some i2 =>
      obtain ⟨hm2, hmin2⟩ := findMarker_some t i2 hf
      have heq : i = i2 := by
        rcases Nat.lt_trichotomy i i2 with h | h | h
        · exact absurd hm (hmin2 i h)
        · exact h
        · exact absurd hm2 (hmin i2 h)
      rw [heq]

/-- C7 witness: the marker theorem applied to a marker-free text, which
gets the marker line prepended, and to a text whose marker is preceded by
two junk characters, which is cut exactly at the marker. -/
theorem c7_witness :
    prepareYaml (("abc").data) = markerL ++ '\n' :: ("abc").data
    ∧ prepareYaml (("xx---abc").data) = (("xx---abc").data).drop 2 :=
  ⟨(c7_marker (("abc").data)).1 (by decide),
   (c7_marker (("xx---abc").data)).2 2 (by decide) (by decide)⟩

/-- C8: when the reference document has no element with the target
element's name owning a containers collection, the pass-3 selection is
empty, the order table built for that element is empty, and the element —
in particular its containers sequence — is left exactly as it was: every
container ties at position 0 and the stable sort keeps the original order. -/
theorem c8_missing_reference_element (ini : Doc) (el : Element)
    (h : ∀ e ∈ ini.elements, ¬ (e.name = el.name ∧ e.containers.isSome = true)) :
    containersTable ini el.name = [] ∧ sortContainersEl ini el = el := by
  have hfil : ini.elements.filter
      (fun e => e.containers.isSome && e.name == el.name) = [] := by
    rw [List.filter_eq_nil_iff]
    intro e he hc
    simp only [Bool.and_eq_true] at hc
    rcases hc with ⟨hs, hn⟩
    exact h e he ⟨beq_iff_eq.mp hn, hs⟩
  have hsel : selContainers ini el.name = [] := by
    rw [selContainers, hfil]
    rfl
  have htab : containersTable ini el.name = [] := by
    rw [containersTable, hsel]
    rfl
  refine ⟨htab, ?_⟩
  obtain ⟨nm, co⟩ := el
  rcases co with _ | cs
  · rfl
  · rw [show sortContainersEl ini ⟨nm, some cs⟩ =
        ⟨nm, some (sortList contItem (containersTable ini nm) [("name")] cs)⟩ from rfl]
    rw [show containersTable ini (⟨nm, some cs⟩ : Element).name =
        containersTable ini nm from rfl] at htab
    rw [htab, sortList_nil_table]

-- A reference without any element named a, and a target element a that
-- owns two containers.
def refZ : Doc :=
  { elements := [{ name := ("z"), containers := none }], relationships := [] }

def elA : Element :=
  { name := ("a"), containers := some [{ name := ("c2") }, { name := ("c1") }] }

/-- C8 witness: the theorem applied to a reference without any element
named a owning containers, and a target element a with two containers. -/
theorem c8_witness :
    containersTable refZ elA.name = [] ∧ sortContainersEl refZ elA = elA :=
  c8_missing_reference_element refZ elA (by decide)

/-- C9: reconciliation never changes the reference component of the state,
and the target-side transform factors through the three order tables built
from the reference: the tables are values computed before the target is
touched, so processing the target cannot modify them, and the reference
tree after `sortDiagram` is the one given on entry. -/
theorem c9_reference_preserved (r t : Doc) :
    (sortDiagramS (r, t)).1 = r
    ∧ (sortDiagramS (r, t)).2 =
        applyOrderTables (elemsTable r) (relsTable r)
          (fun nm => containersTable r nm) t := by
  constructor
  · rfl
  · rfl

/-- C10: the composite key function is not injective on nodes with
distinct property values: two relationships whose source and destination
differ but contain the separator character produce the same key x.y.z, so
the Reorderer gives them the same position under every order table. -/
theorem c10_key_not_injective :
    sortKey (relItem { source := ("x.y"), destination := ("z") })
        [("source"), ("destination")] =
      sortKey (relItem { source := ("x"), destination := ("y.z") })
        [("source"), ("destination")]
    ∧ ({ source := ("x.y"), destination := ("z") } : Relationship).source ≠
        ({ source := ("x"), destination := ("y.z") } : Relationship).source
    ∧ ∀ t : Table,
        posN t [("source"), ("destination")]
            (relItem { source := ("x.y"), destination := ("z") }) =
          posN t [("source"), ("destination")]
            (relItem { source := ("x"), destination := ("y.z") }) := by
  have hk : sortKey (relItem { source := ("x.y"), destination := ("z") })
      [("source"), ("destination")] =
      sortKey (relItem { source := ("x"), destination := ("y.z") })
      [("source"), ("destination")] := by decide
  refine ⟨hk, by decide, fun t => ?_⟩
  unfold posN
  rw [hk]
